/-
Verification of the Nuclide excerpt (device-stop provider, package
loader, pane-visibility observer) against its natural-language
specification.  Each JS source function is shallowly embedded as a Lean
definition; effectful host calls (RPC, `atom.packages`, `console.error`)
are modelled by explicit event traces, and observables by finite event
lists.
-/
import Mathlib

namespace Nuclide

/-! ## `src/pkg/nuclide-adb-sdb/lib/ATDeviceStopPackageProvider.js`

The provider reads only the `name` and `pid` fields of a `Process`
(the full `Process` type lives in `nuclide-devices/lib/types`, outside
this excerpt), so the embedding carries exactly those fields. -/

structure Process where
  name : String
  pid : Int
deriving DecidableEq, Repr

/-- The slice of `AdbService` the provider calls: `killProcess(device,
name)`.  The result type `α` is abstract, exactly as the provider treats
it (its `run` returns whatever the RPC returns). -/
structure AdbService (α : Type) where
  killProcess : String → String → α

structure ATDeviceStopPackageProvider (α : Type) where
  _type : String
  _rpcFactory : String → AdbService α

def ATDeviceStopPackageProvider.getType {α} (p : ATDeviceStopPackageProvider α) : String :=
  p._type

def ATDeviceStopPackageProvider.getTaskType {α} (_p : ATDeviceStopPackageProvider α) : String :=
  "STOP_PACKAGE"

def ATDeviceStopPackageProvider.getName {α} (_p : ATDeviceStopPackageProvider α) : String :=
  "Stop package"

def ATDeviceStopPackageProvider.isSupported {α} (_p : ATDeviceStopPackageProvider α)
    (_proc : Process) : Bool :=
  true

/-- `getSupportedPIDs` resolves to `new Set(procs.map(proc => proc.pid))`;
the JS `Set` is modelled by a `Finset` (the promise resolves immediately
with it). -/
def ATDeviceStopPackageProvider.getSupportedPIDs {α} (_p : ATDeviceStopPackageProvider α)
    (_host _device : String) (procs : List Process) : Finset Int :=
  (procs.map Process.pid).toFinset

def ATDeviceStopPackageProvider.run {α} (p : ATDeviceStopPackageProvider α)
    (host device : String) (proc : Process) : α :=
  (p._rpcFactory host).killProcess device proc.name

/-- An instrumented `AdbService` whose `killProcess` records the one call
made to it, together with the host it was obtained for; used to observe
which RPCs `run` performs. -/
def loggingFactory : String → AdbService (List (String × String × String)) :=
  fun host => ⟨fun device procName => [(host, device, procName)]⟩

/-- C1: `run(host, device, proc)` returns exactly the result of
`rpcFactory(host).killProcess(device, proc.name)`; under an instrumented
service its trace is that single RPC call; and the result never depends
on `proc.pid`, only on `proc.name`. -/
theorem run_is_single_killProcess_by_name {α} (p : ATDeviceStopPackageProvider α)
    (t : String) (host device : String) (proc : Process) :
    p.run host device proc = (p._rpcFactory host).killProcess device proc.name ∧
    (ATDeviceStopPackageProvider.mk t loggingFactory).run host device proc
      = [(host, device, proc.name)] ∧
    ∀ pid' : Int, p.run host device { proc with pid := pid' } = p.run host device proc := by
  refine ⟨rfl, rfl, fun _ => rfl⟩

/-- C8: `getName` and `getTaskType` are the constants `"Stop package"`
and `"STOP_PACKAGE"` whatever the constructor arguments, while `getType`
returns the `type` string given at construction. -/
theorem provider_constants {α} (t : String) (rpcFactory : String → AdbService α) :
    (ATDeviceStopPackageProvider.mk t rpcFactory).getName = "Stop package" ∧
    (ATDeviceStopPackageProvider.mk t rpcFactory).getTaskType = "STOP_PACKAGE" ∧
    (ATDeviceStopPackageProvider.mk t rpcFactory).getType = t :=
  ⟨rfl, rfl, rfl⟩

/-- C9: `isSupported` returns `true` for every process, and
`getSupportedPIDs` resolves to exactly the set of `pid` values of the
given processes: the provider filters nothing out. -/
theorem provider_supports_everything {α} (p : ATDeviceStopPackageProvider α)
    (host device : String) (proc : Process) (procs : List Process) :
    p.isSupported proc = true ∧
    ∀ x : Int, x ∈ p.getSupportedPIDs host device procs ↔ ∃ q ∈ procs, q.pid = x := by
  refine ⟨rfl, fun x => ?_⟩
  simp [ATDeviceStopPackageProvider.getSupportedPIDs]

/-! ## `src/lib/main.js` — feature discovery

`fs.readdirSync(FEATURES_DIR)` is modelled by a list of directory
entries; an entry's `package.json` is either absent (`statSync` throws
`ENOENT` and the entry is skipped) or a file carrying both its raw text
`src` and the result `pkg` of `JSON.parse(src)`.  The `pkg` record keeps
the fields `main.js` reads. -/

/-- One entry of a feature's declared config object; `title` is the
(optional) `title` property and `fields` the remaining properties, kept
opaque (they are spread through unchanged). -/
structure FeatureConfigEntry where
  title : Option String
  fields : List (String × String)
deriving DecidableEq, Repr

structure NuclideSection where
  packageType : Option String
  config : Option (List (String × FeatureConfigEntry))
deriving DecidableEq, Repr

structure PkgJson where
  name : String
  description : Option String
  providedServices : Option (List String)
  consumedServices : Option (List String)
  atomConfig : Option (List (String × FeatureConfigEntry))
  nuclide : Option NuclideSection
deriving DecidableEq, Repr

structure PackageFile where
  src : String
  pkg : PkgJson
deriving DecidableEq, Repr

structure DirEntry where
  name : String
  packageJson : Option PackageFile
deriving DecidableEq, Repr

structure Feature where
  pkg : PkgJson
  dirname : String
  useKeyPath : String
deriving DecidableEq, Repr

def listStartsWith : List Char → List Char → Bool
  | _, [] => true
  | [], _ :: _ => false
  | c :: cs, p :: ps => c == p && listStartsWith cs ps

def listHasSub : List Char → List Char → Bool
  | [], pat => listStartsWith [] pat
  | c :: rest, pat => listStartsWith (c :: rest) pat || listHasSub rest pat

/-- JS `s.indexOf(pat) !== -1` for a non-empty pattern `pat`. -/
def strContains (s pat : String) : Bool :=
  listHasSub s.data pat.data

/-- JS `s.indexOf(c) !== -1` for a single character `c`. -/
def strHasChar (s : String) (c : Char) : Bool :=
  s.data.contains c

/-- JS object property assignment `m[k] = v`: an existing key keeps its
position, a new key is appended. -/
def upsert {κ α : Type} [DecidableEq κ] (m : List (κ × α)) (k : κ) (v : α) :
    List (κ × α) :=
  if m.any (fun kv => kv.1 = k) then
    m.map (fun kv => if kv.1 = k then (k, v) else kv)
  else m ++ [(k, v)]

/-- The body of the `fs.readdirSync(FEATURES_DIR).forEach(item => ...)`
loop of `main.js` (lines 107-136); a failed `invariant(pkg.name)` throws
and aborts the whole scan. -/
def scanStep (featuresDir : String) (features : List (String × Feature))
    (item : DirEntry) : Except String (List (String × Feature)) :=
  if strHasChar item.name '.' then
    Except.ok features
  else
    match item.packageJson with
    | none => Except.ok features
    | some file =>
      if !strContains file.src "\"Atom\"" then
        Except.ok features
      else
        match file.pkg.nuclide with
        | some nuc =>
          if nuc.packageType = some "Atom" then
            if file.pkg.name = "" then
              Except.error "invariant violation: pkg.name"
            else
              Except.ok (upsert features file.pkg.name
                ⟨file.pkg, featuresDir ++ "/" ++ item.name,
                 "nuclide.use." ++ file.pkg.name⟩)
          else Except.ok features
        | none => Except.ok features

def scanPkgFeatures (featuresDir : String) (entries : List DirEntry) :
    Except String (List (String × Feature)) :=
  entries.foldlM (scanStep featuresDir) []

/-- The `ATOM_IDE_DIR` loop (lines 139-150): every entry must have a
`package.json` (`readFileSync` throws otherwise) and is registered
unconditionally. -/
def scanAtomIdeFeatures (atomIdeDir : String) (entries : List DirEntry)
    (features : List (String × Feature)) : Except String (List (String × Feature)) :=
  entries.foldlM (fun feats item =>
    match item.packageJson with
    | none => Except.error "ENOENT: no package.json"
    | some file =>
      Except.ok (upsert feats file.pkg.name
        ⟨file.pkg, atomIdeDir ++ "/" ++ item.name,
         "nuclide.use." ++ file.pkg.name⟩)) features

/-- Spec-side registration predicate, written from the claim's words: the
entry's name contains no `'.'`, the entry has a `package.json`, the raw
text contains `"Atom"` (with quotes), and the parsed package declares
`nuclide.packageType === 'Atom'`. -/
def eligibleEntry (entry : DirEntry) : Bool :=
  !(strHasChar entry.name '.') &&
  (match entry.packageJson with
   | none => false
   | some file =>
     strContains file.src "\"Atom\"" &&
     (match file.pkg.nuclide with
      | some nuc => nuc.packageType = some "Atom"
      | none => false))

def entryPkgName (entry : DirEntry) : Option String :=
  entry.packageJson.map (fun file => file.pkg.name)

theorem mem_upsert_cases {κ α : Type} [DecidableEq κ] {m : List (κ × α)} {k n : κ}
    {f v : α} (h : (k, f) ∈ upsert m n v) : (k, f) ∈ m ∨ (k = n ∧ f = v) := by
  unfold upsert at h
  by_cases hany : m.any (fun kv => kv.1 = n)
  · rw [if_pos hany, List.mem_map] at h
    obtain ⟨kv, hkv, heq⟩ := h
    by_cases hk : kv.1 = n
    · rw [if_pos hk] at heq
      injection heq with h1 h2
      exact Or.inr ⟨h1.symm, h2.symm⟩
    · rw [if_neg hk] at heq
      exact Or.inl (heq ▸ hkv)
  · rw [if_neg hany, List.mem_append, List.mem_singleton] at h
    rcases h with h | h
    · exact Or.inl h
    · injection h with h1 h2
      exact Or.inr ⟨h1, h2⟩

theorem exists_mem_upsert_iff {κ α : Type} [DecidableEq κ] (m : List (κ × α)) (n k : κ) (v : α) :
    (∃ f, (k, f) ∈ upsert m n v) ↔ (∃ f, (k, f) ∈ m) ∨ k = n := by
  constructor
  · rintro ⟨f, hf⟩
    rcases mem_upsert_cases hf with h | ⟨hk, _⟩
    · exact Or.inl ⟨f, h⟩
    · exact Or.inr hk
  · rintro (⟨f, hf⟩ | rfl)
    · unfold upsert
      by_cases hany : m.any (fun kv => kv.1 = n)
      · rw [if_pos hany]
        by_cases hk : k = n
        · subst hk
          refine ⟨v, List.mem_map.mpr ⟨(k, f), hf, ?_⟩⟩
          simp
        · refine ⟨f, List.mem_map.mpr ⟨(k, f), hf, ?_⟩⟩
          simp [hk]
      · rw [if_neg hany]
        exact ⟨f, List.mem_append.mpr (Or.inl hf)⟩
    · unfold upsert
      by_cases hany : m.any (fun kv => kv.1 = k)
      · rw [if_pos hany]
        obtain ⟨kv, hkv, hk⟩ := List.any_eq_true.mp hany
        refine ⟨v, List.mem_map.mpr ⟨kv, hkv, ?_⟩⟩
        rw [if_pos (of_decide_eq_true hk)]
      · rw [if_neg hany]
        exact ⟨v, List.mem_append.mpr (Or.inr (List.mem_singleton.mpr rfl))⟩

theorem scanStep_eq (dir : String) (acc : List (String × Feature)) (item : DirEntry) :
    scanStep dir acc item =
      if eligibleEntry item then
        match item.packageJson with
        | some file =>
          if file.pkg.name = "" then Except.error "invariant violation: pkg.name"
          else Except.ok (upsert acc file.pkg.name
            ⟨file.pkg, dir ++ "/" ++ item.name, "nuclide.use." ++ file.pkg.name⟩)
        | none => Except.ok acc
      else Except.ok acc := by
  unfold scanStep eligibleEntry
  cases hpj : item.packageJson with
  | none => by_cases hdot : strHasChar item.name '.' <;> simp [hdot]
  | some file =>
    by_cases hdot : strHasChar item.name '.'
    · simp [hdot]
    · by_cases hsrc : strContains file.src "\"Atom\""
      · cases hnuc : file.pkg.nuclide with
        | none => simp [hdot, hsrc, hnuc]
        | some nuc =>
          by_cases hpt : nuc.packageType = some "Atom"
          · simp [hdot, hsrc, hnuc, hpt]
          · simp [hdot, hsrc, hnuc, hpt]
      · simp [hdot, hsrc]

theorem scanStep_eligible (dir : String) (acc : List (String × Feature))
    (item : DirEntry) (file : PackageFile) (hfile : item.packageJson = some file)
    (helig : eligibleEntry item = true) :
    scanStep dir acc item =
      if file.pkg.name = "" then Except.error "invariant violation: pkg.name"
      else Except.ok (upsert acc file.pkg.name
        ⟨file.pkg, dir ++ "/" ++ item.name, "nuclide.use." ++ file.pkg.name⟩) := by
  rw [scanStep_eq, if_pos helig, hfile]

theorem scanPkgFeatures_from_spec (dir : String) (entries : List DirEntry) :
    ∀ (acc features : List (String × Feature)),
    List.foldlM (scanStep dir) acc entries = Except.ok features →
    (∀ name, (∃ f, (name, f) ∈ features) ↔
        (∃ f, (name, f) ∈ acc) ∨
          ∃ entry ∈ entries, eligibleEntry entry = true ∧ entryPkgName entry = some name) ∧
    (∀ name f, (name, f) ∈ features →
        (name, f) ∈ acc ∨ (f.pkg.name = name ∧ f.useKeyPath = "nuclide.use." ++ name)) := by
  induction entries with
  | nil =>
    intro acc features h
    rw [List.foldlM_nil] at h
    cases h
    exact ⟨fun name => by simp, fun name f hf => Or.inl hf⟩
  | cons e rest ih =>
    intro acc features h
    rw [List.foldlM_cons] at h
    by_cases helig : eligibleEntry e = true
    · have hpj : ∃ file, e.packageJson = some file := by
        unfold eligibleEntry at helig
        cases hpj : e.packageJson with
        | none => rw [hpj] at helig; simp at helig
        | some file => exact ⟨file, rfl⟩
      obtain ⟨file, hfile⟩ := hpj
      rw [scanStep_eligible dir acc e file hfile helig] at h
      by_cases hname : file.pkg.name = ""
      · rw [if_pos hname] at h
        exact Except.noConfusion h
      · rw [if_neg hname] at h
        have h' : List.foldlM (scanStep dir)
            (upsert acc file.pkg.name
              ⟨file.pkg, dir ++ "/" ++ e.name, "nuclide.use." ++ file.pkg.name⟩)
            rest = Except.ok features := h
        obtain ⟨ihkeys, ihproj⟩ := ih _ _ h'
        constructor
        · intro name
          rw [ihkeys name, exists_mem_upsert_iff]
          simp only [List.mem_cons]
          constructor
          · rintro ((hacc | rfl) | hrest)
            · exact Or.inl hacc
            · exact Or.inr ⟨e, Or.inl rfl, helig, by simp [entryPkgName, hfile]⟩
            · obtain ⟨entry, hmem, hel, hpn⟩ := hrest
              exact Or.inr ⟨entry, Or.inr hmem, hel, hpn⟩
          · rintro (hacc | ⟨entry, (rfl | hmem), hel, hpn⟩)
            · exact Or.inl (Or.inl hacc)
            · rw [entryPkgName, hfile] at hpn
              simp only [Option.map_some', Option.some.injEq] at hpn
              exact Or.inl (Or.inr hpn.symm)
            · exact Or.inr ⟨entry, hmem, hel, hpn⟩
        · intro name f hf
          rcases ihproj name f hf with hup | hprop
          · rcases mem_upsert_cases hup with hacc | ⟨rfl, rfl⟩
            · exact Or.inl hacc
            · exact Or.inr ⟨rfl, rfl⟩
          · exact Or.inr hprop
    · rw [scanStep_eq, if_neg helig] at h
      have h' : List.foldlM (scanStep dir) acc rest = Except.ok features := h
      obtain ⟨ihkeys, ihproj⟩ := ih _ _ h'
      refine ⟨fun name => ?_, ihproj⟩
      rw [ihkeys name]
      simp only [List.mem_cons]
      constructor
      · rintro (hacc | ⟨entry, hmem, hel, hpn⟩)
        · exact Or.inl hacc
        · exact Or.inr ⟨entry, Or.inr hmem, hel, hpn⟩
      · rintro (hacc | ⟨entry, (rfl | hmem), hel, hpn⟩)
        · exact Or.inl hacc
        · exact absurd hel helig
        · exact Or.inr ⟨entry, hmem, hel, hpn⟩

/-- C2: the pkg-directory scan registers a feature for key `name` iff
some directory entry is eligible (name without `'.'`, a `package.json`
whose text contains `"Atom"` and whose parse declares
`nuclide.packageType === 'Atom'`) and its package is named `name`; every
registered feature is keyed by its package name and carries the config
key path `nuclide.use.<name>`. -/
theorem scanPkgFeatures_registers_iff (dir : String) (entries : List DirEntry)
    (features : List (String × Feature))
    (h : scanPkgFeatures dir entries = Except.ok features) :
    (∀ name, (∃ f, (name, f) ∈ features) ↔
       ∃ entry ∈ entries, eligibleEntry entry = true ∧ entryPkgName entry = some name) ∧
    (∀ name f, (name, f) ∈ features →
       f.pkg.name = name ∧ f.useKeyPath = "nuclide.use." ++ name) := by
  obtain ⟨hkeys, hproj⟩ := scanPkgFeatures_from_spec dir entries [] features h
  refine ⟨fun name => ?_, fun name f hf => ?_⟩
  · rw [hkeys name]
    simp
  · rcases hproj name f hf with hmem | hprop
    · simp at hmem
    · exact hprop

def pkgFoo : PkgJson :=
  ⟨"foo", none, none, none, none, some ⟨some "Atom", none⟩⟩

def entryFoo : DirEntry :=
  ⟨"foo", some ⟨"x \"Atom\" y", pkgFoo⟩⟩

def entryBad : DirEntry :=
  ⟨"README.md", none⟩

theorem scanPkgFeatures_registers_iff_witness :
    ∃ f, ("foo", f) ∈ [("foo", Feature.mk pkgFoo "pkg/foo" "nuclide.use.foo")] :=
  ((scanPkgFeatures_registers_iff "pkg" [entryFoo, entryBad]
      [("foo", Feature.mk pkgFoo "pkg/foo" "nuclide.use.foo")] (by rfl)).1 "foo").mpr
    ⟨entryFoo, by simp, by decide, by decide⟩

/-! ## `src/lib/main.js` — building the `config` object (lines 160-199)

The exported `config` also carries the static entries
`installRecommendedPackages`, `useLocalRpc` and the `use` wrapper
(`type: 'object', collapsed: true`); the schema embedding keeps the two
parts the loop writes: `config.use.properties` and the per-feature
sections `config[name]`. -/

/-- JS `a || b` where `a` is an optional string: `undefined` and the
empty string are falsy. -/
def jsOrString (v : Option String) (d : String) : String :=
  match v with
  | none => d
  | some s => if s = "" then d else s

structure UseSetting where
  title : String
  description : String
  type : String
  default : Bool
deriving DecidableEq, Repr

structure BuiltConfigEntry where
  title : String
  fields : List (String × String)
deriving DecidableEq, Repr

structure FeatureSection where
  type : String
  collapsed : Bool
  properties : List (String × BuiltConfigEntry)
deriving DecidableEq, Repr

structure ConfigSchema where
  useProperties : List (String × UseSetting)
  featureSections : List (String × FeatureSection)
deriving DecidableEq, Repr

/-- Lines 163-181: the enable/disable setting of one feature.  Sample
packages (`sample-` name) are disabled by default; the description
is `pkg.description || ''` plus the provided/consumed service lists. -/
def buildUseSetting (name : String) (pkg : PkgJson) : UseSetting :=
  let enabled := !(listStartsWith name.data "sample-".data)
  let setting : UseSetting :=
    ⟨"Enable the \"" ++ name ++ "\" feature", jsOrString pkg.description "",
     "boolean", enabled⟩
  let setting :=
    match pkg.providedServices with
    | some provides =>
      { setting with description :=
          setting.description ++ "<br/>**Provides:** _" ++
            String.intercalate ", " provides ++ "_" }
    | none => setting
  match pkg.consumedServices with
  | some consumes =>
    { setting with description :=
        setting.description ++ "<br/>**Consumes:** _" ++
          String.intercalate ", " consumes ++ "_" }
  | none => setting

/-- Line 185, `pkg.atomConfig || pkg.nuclide.config`: when `atomConfig`
is absent and the package has no `nuclide` field, reading `.config` of
`undefined` throws a TypeError. -/
def featurePkgConfig (pkg : PkgJson) :
    Except String (Option (List (String × FeatureConfigEntry))) :=
  match pkg.atomConfig with
  | some c => Except.ok (some c)
  | none =>
    match pkg.nuclide with
    | none => Except.error "TypeError: cannot read property config of undefined"
    | some nuc => Except.ok nuc.config

/-- Lines 192-197: copy every config entry, defaulting a falsy `title`
to the entry's key. -/
def buildSectionProperties (pkgConfig : List (String × FeatureConfigEntry)) :
    List (String × BuiltConfigEntry) :=
  pkgConfig.foldl (fun props kv =>
    upsert props kv.1 ⟨jsOrString kv.2.title kv.1, kv.2.fields⟩) []

/-- One iteration of the `Object.keys(features).forEach(name => ...)`
loop (lines 160-199). -/
def buildConfigStep (cfg : ConfigSchema) : String × Feature → Except String ConfigSchema
  | (name, feature) =>
    let setting := buildUseSetting name feature.pkg
    let cfg1 : ConfigSchema :=
      { cfg with useProperties := upsert cfg.useProperties name setting }
    match featurePkgConfig feature.pkg with
    | Except.error e => Except.error e
    | Except.ok none => Except.ok cfg1
    | Except.ok (some pkgConfig) =>
      let sections := upsert cfg1.featureSections name
        ⟨"object", true, buildSectionProperties pkgConfig⟩
      Except.ok { cfg1 with featureSections := sections }

def buildConfig (features : List (String × Feature)) : Except String ConfigSchema :=
  features.foldlM buildConfigStep ⟨[], []⟩

/-- JS `m[k]` read on the object modelled by the association list. -/
def lookupKey {κ α : Type} [DecidableEq κ] (k : κ) : List (κ × α) → Option α
  | [] => none
  | kv :: rest => if kv.1 = k then some kv.2 else lookupKey k rest

theorem lookupKey_map_update_self {κ α : Type} [DecidableEq κ] (k : κ) (v : α) :
    ∀ m : List (κ × α), (∃ kv0 ∈ m, kv0.1 = k) →
    lookupKey k (m.map (fun kv => if kv.1 = k then (k, v) else kv)) = some v := by
  intro m
  induction m with
  | nil => rintro ⟨kv0, hkv0, _⟩; cases hkv0
  | cons hd tl ih =>
    rintro ⟨kv0, hkv0, hk0⟩
    rw [List.map_cons]
    by_cases hhd : hd.1 = k
    · rw [if_pos hhd, lookupKey, if_pos rfl]
    · rw [if_neg hhd, lookupKey, if_neg hhd]
      rcases List.mem_cons.mp hkv0 with rfl | hmem
      · exact absurd hk0 hhd
      · exact ih ⟨kv0, hmem, hk0⟩

theorem lookupKey_append_self {κ α : Type} [DecidableEq κ] (k : κ) (v : α) :
    ∀ m : List (κ × α), (∀ kv ∈ m, kv.1 ≠ k) →
    lookupKey k (m ++ [(k, v)]) = some v := by
  intro m
  induction m with
  | nil => intro _; rw [List.nil_append, lookupKey, if_pos rfl]
  | cons hd tl ih =>
    intro hno
    rw [List.cons_append, lookupKey, if_neg (hno hd (List.mem_cons_self hd tl))]
    exact ih (fun kv hkv => hno kv (List.mem_cons_of_mem hd hkv))

theorem lookupKey_map_update_ne {κ α : Type} [DecidableEq κ] (k n : κ) (v : α) (h : k ≠ n) :
    ∀ m : List (κ × α),
    lookupKey k (m.map (fun kv => if kv.1 = n then (n, v) else kv)) = lookupKey k m := by
  intro m
  induction m with
  | nil => rfl
  | cons hd tl ih =>
    rw [List.map_cons]
    by_cases hhd : hd.1 = n
    · rw [if_pos hhd, lookupKey, lookupKey,
        if_neg (show ¬((n, v).1 = k) from fun hc => h ((show (n, v).1 = n from rfl) ▸ hc).symm),
        if_neg (show ¬(hd.1 = k) from fun hc => h (hhd ▸ hc).symm)]
      exact ih
    · rw [if_neg hhd, lookupKey, lookupKey]
      by_cases hk : hd.1 = k
      · rw [if_pos hk, if_pos hk]
      · rw [if_neg hk, if_neg hk]
        exact ih

theorem lookupKey_append_ne {κ α : Type} [DecidableEq κ] (k n : κ) (v : α) (h : k ≠ n) :
    ∀ m : List (κ × α), lookupKey k (m ++ [(n, v)]) = lookupKey k m := by
  intro m
  induction m with
  | nil =>
    have h1 : ¬(n = k) := fun hc => h hc.symm
    simp [lookupKey, h1]
  | cons hd tl ih =>
    rw [List.cons_append, lookupKey, lookupKey]
    by_cases hk : hd.1 = k
    · rw [if_pos hk, if_pos hk]
    · rw [if_neg hk, if_neg hk]
      exact ih

theorem lookupKey_upsert {κ α : Type} [DecidableEq κ] (m : List (κ × α)) (k : κ) (v : α) :
    lookupKey k (upsert m k v) = some v := by
  unfold upsert
  by_cases hany : m.any (fun kv => kv.1 = k)
  · rw [if_pos hany]
    obtain ⟨kv0, hkv0, hk0⟩ := List.any_eq_true.mp hany
    exact lookupKey_map_update_self k v m ⟨kv0, hkv0, of_decide_eq_true hk0⟩
  · rw [if_neg hany]
    refine lookupKey_append_self k v m (fun kv hkv hk => ?_)
    exact hany (List.any_eq_true.mpr ⟨kv, hkv, decide_eq_true hk⟩)

theorem lookupKey_upsert_ne {κ α : Type} [DecidableEq κ] (m : List (κ × α)) (k n : κ) (v : α)
    (h : k ≠ n) : lookupKey k (upsert m n v) = lookupKey k m := by
  unfold upsert
  by_cases hany : m.any (fun kv => kv.1 = n)
  · rw [if_pos hany]
    exact lookupKey_map_update_ne k n v h m
  · rw [if_neg hany]
    exact lookupKey_append_ne k n v h m

theorem upsert_of_fresh {κ α : Type} [DecidableEq κ] (m : List (κ × α)) (k : κ) (v : α)
    (h : ∀ kv ∈ m, kv.1 ≠ k) : upsert m k v = m ++ [(k, v)] := by
  unfold upsert
  rw [if_neg]
  intro hany
  obtain ⟨kv, hkv, hx⟩ := List.any_eq_true.mp hany
  exact h kv hkv (of_decide_eq_true hx)

theorem foldl_upsert_eq_map {κ β γ : Type} [DecidableEq κ] (g : κ × β → γ) :
    ∀ (pc : List (κ × β)) (acc : List (κ × γ)),
    (pc.map Prod.fst).Nodup →
    (∀ k ∈ pc.map Prod.fst, ∀ kv ∈ acc, kv.1 ≠ k) →
    pc.foldl (fun m kv => upsert m kv.1 (g kv)) acc
      = acc ++ pc.map (fun kv => (kv.1, g kv)) := by
  intro pc
  induction pc with
  | nil =>
    intro acc _ _
    simp
  | cons hd tl ih =>
    intro acc hnodup hdisj
    rw [List.map_cons] at hnodup
    obtain ⟨hhd, htl⟩ := List.nodup_cons.mp hnodup
    rw [List.foldl_cons,
      upsert_of_fresh acc hd.1 (g hd) (hdisj hd.1 (by simp)),
      ih (acc ++ [(hd.1, g hd)]) htl ?_]
    · simp
    · intro k hk kv hkv
      rcases List.mem_append.mp hkv with hacc | hone
      · exact hdisj k (by simp [hk]) kv hacc
      · rcases List.mem_singleton.mp hone with rfl
        intro hc
        exact hhd (hc ▸ hk)

theorem buildSectionProperties_eq_map (pc : List (String × FeatureConfigEntry))
    (h : (pc.map Prod.fst).Nodup) :
    buildSectionProperties pc
      = pc.map (fun kv => (kv.1, ⟨jsOrString kv.2.title kv.1, kv.2.fields⟩)) := by
  unfold buildSectionProperties
  have := foldl_upsert_eq_map
    (fun kv : String × FeatureConfigEntry =>
      BuiltConfigEntry.mk (jsOrString kv.2.title kv.1) kv.2.fields)
    pc [] h (by intro k _ kv hkv; cases hkv)
  simpa using this

theorem buildConfigStep_error (acc : ConfigSchema) (n0 : String) (f0 : Feature)
    (e : String) (hfc : featurePkgConfig f0.pkg = Except.error e) :
    buildConfigStep acc (n0, f0) = Except.error e := by
  simp only [buildConfigStep, hfc]

theorem buildConfigStep_none (acc : ConfigSchema) (n0 : String) (f0 : Feature)
    (hfc : featurePkgConfig f0.pkg = Except.ok none) :
    buildConfigStep acc (n0, f0) =
      Except.ok ⟨upsert acc.useProperties n0 (buildUseSetting n0 f0.pkg),
                 acc.featureSections⟩ := by
  simp only [buildConfigStep, hfc]

theorem buildConfigStep_some (acc : ConfigSchema) (n0 : String) (f0 : Feature)
    (pc : List (String × FeatureConfigEntry))
    (hfc : featurePkgConfig f0.pkg = Except.ok (some pc)) :
    buildConfigStep acc (n0, f0) =
      Except.ok ⟨upsert acc.useProperties n0 (buildUseSetting n0 f0.pkg),
                 upsert acc.featureSections n0
                   ⟨"object", true, buildSectionProperties pc⟩⟩ := by
  simp only [buildConfigStep, hfc]

theorem buildConfig_fold_preserves (name : String) (features : List (String × Feature)) :
    ∀ (acc cfg : ConfigSchema),
    List.foldlM buildConfigStep acc features = Except.ok cfg →
    (∀ n ∈ features.map Prod.fst, n ≠ name) →
    lookupKey name cfg.useProperties = lookupKey name acc.useProperties ∧
    lookupKey name cfg.featureSections = lookupKey name acc.featureSections := by
  induction features with
  | nil =>
    intro acc cfg h _
    rw [List.foldlM_nil] at h
    cases h
    exact ⟨rfl, rfl⟩
  | cons hd tl ih =>
    intro acc cfg h hne
    obtain ⟨n0, f0⟩ := hd
    have hne0 : name ≠ n0 := fun hc => hne n0 (by simp) hc.symm
    rw [List.foldlM_cons] at h
    cases hfc : featurePkgConfig f0.pkg with
    | error e =>
      rw [buildConfigStep_error acc n0 f0 e hfc] at h
      exact Except.noConfusion h
    | ok opc =>
      cases opc with
      | none =>
        rw [buildConfigStep_none acc n0 f0 hfc] at h
        have h' : List.foldlM buildConfigStep
            ⟨upsert acc.useProperties n0 (buildUseSetting n0 f0.pkg),
             acc.featureSections⟩ tl = Except.ok cfg := h
        obtain ⟨h1, h2⟩ := ih _ cfg h' (fun n hn => hne n (by simp [hn]))
        exact ⟨h1.trans (lookupKey_upsert_ne _ name n0 _ hne0), h2⟩
      | some pc =>
        rw [buildConfigStep_some acc n0 f0 pc hfc] at h
        have h' : List.foldlM buildConfigStep
            ⟨upsert acc.useProperties n0 (buildUseSetting n0 f0.pkg),
             upsert acc.featureSections n0
               ⟨"object", true, buildSectionProperties pc⟩⟩ tl = Except.ok cfg := h
        obtain ⟨h1, h2⟩ := ih _ cfg h' (fun n hn => hne n (by simp [hn]))
        exact ⟨h1.trans (lookupKey_upsert_ne _ name n0 _ hne0),
               h2.trans (lookupKey_upsert_ne _ name n0 _ hne0)⟩

theorem buildConfig_fold_main (features : List (String × Feature)) :
    ∀ (acc cfg : ConfigSchema),
    List.foldlM buildConfigStep acc features = Except.ok cfg →
    (features.map Prod.fst).Nodup →
    ∀ name f, (name, f) ∈ features →
    lookupKey name cfg.useProperties = some (buildUseSetting name f.pkg) ∧
    ∀ pc, featurePkgConfig f.pkg = Except.ok (some pc) →
      lookupKey name cfg.featureSections
        = some ⟨"object", true, buildSectionProperties pc⟩ := by
  induction features with
  | nil =>
    intro acc cfg _ _ name f hmem
    cases hmem
  | cons hd tl ih =>
    intro acc cfg h hnodup name f hmem
    obtain ⟨n0, f0⟩ := hd
    rw [List.map_cons] at hnodup
    obtain ⟨hhd, htl⟩ := List.nodup_cons.mp hnodup
    rw [List.foldlM_cons] at h
    cases hfc : featurePkgConfig f0.pkg with
    | error e =>
      rw [buildConfigStep_error acc n0 f0 e hfc] at h
      exact Except.noConfusion h
    | ok opc =>
      have hne : ∀ n ∈ tl.map Prod.fst, n ≠ n0 := fun n hn hc => hhd (hc ▸ hn)
      cases opc with
      | none =>
        rw [buildConfigStep_none acc n0 f0 hfc] at h
        have h' : List.foldlM buildConfigStep
            ⟨upsert acc.useProperties n0 (buildUseSetting n0 f0.pkg),
             acc.featureSections⟩ tl = Except.ok cfg := h
        rcases List.mem_cons.mp hmem with heq | hmem'
        · injection heq with hn hf
          subst hn
          subst hf
          obtain ⟨h1, _⟩ := buildConfig_fold_preserves name tl _ cfg h' hne
          refine ⟨h1.trans (lookupKey_upsert _ name _), fun pc hpc => ?_⟩
          rw [hfc] at hpc
          exact absurd (Except.ok.inj hpc) (fun hc => Option.noConfusion hc)
        · exact ih _ cfg h' htl name f hmem'
      | some pc0 =>
        rw [buildConfigStep_some acc n0 f0 pc0 hfc] at h
        have h' : List.foldlM buildConfigStep
            ⟨upsert acc.useProperties n0 (buildUseSetting n0 f0.pkg),
             upsert acc.featureSections n0
               ⟨"object", true, buildSectionProperties pc0⟩⟩ tl = Except.ok cfg := h
        rcases List.mem_cons.mp hmem with heq | hmem'
        · injection heq with hn hf
          subst hn
          subst hf
          obtain ⟨h1, h2⟩ := buildConfig_fold_preserves name tl _ cfg h' hne
          refine ⟨h1.trans (lookupKey_upsert _ name _), fun pc hpc => ?_⟩
          rw [hfc] at hpc
          have : pc0 = pc := Option.some.inj (Except.ok.inj hpc)
          subst this
          exact h2.trans (lookupKey_upsert _ name _)
        · exact ih _ cfg h' htl name f hmem'

theorem buildUseSetting_type_default (name : String) (pkg : PkgJson) :
    (buildUseSetting name pkg).type = "boolean" ∧
    (buildUseSetting name pkg).default = !(listStartsWith name.data "sample-".data) := by
  unfold buildUseSetting
  cases pkg.providedServices <;> cases pkg.consumedServices <;> exact ⟨rfl, rfl⟩

/-- C3: for every discovered feature, the settings-schema build adds a
boolean enable entry under `config.use.properties[name]` whose default
is `true` iff the name does not start with `sample-`, and, when
`pkg.atomConfig || pkg.nuclide.config` is declared, an object section
`config[name]` whose properties copy the feature's config entries with
a missing (falsy) `title` defaulting to the entry's key. -/
theorem buildConfig_adds_feature_entries (features : List (String × Feature))
    (cfg : ConfigSchema) (hnodup : (features.map Prod.fst).Nodup)
    (hok : buildConfig features = Except.ok cfg)
    (name : String) (f : Feature) (hmem : (name, f) ∈ features) :
    (lookupKey name cfg.useProperties = some (buildUseSetting name f.pkg) ∧
     (buildUseSetting name f.pkg).type = "boolean" ∧
     (buildUseSetting name f.pkg).default
       = !(listStartsWith name.data "sample-".data)) ∧
    (∀ pc, featurePkgConfig f.pkg = Except.ok (some pc) →
       lookupKey name cfg.featureSections
         = some ⟨"object", true, buildSectionProperties pc⟩ ∧
       ((pc.map Prod.fst).Nodup →
         buildSectionProperties pc
           = pc.map (fun kv => (kv.1, ⟨jsOrString kv.2.title kv.1, kv.2.fields⟩)))) := by
  obtain ⟨h1, h2⟩ := buildConfig_fold_main features ⟨[], []⟩ cfg hok hnodup name f hmem
  obtain ⟨ht, hd⟩ := buildUseSetting_type_default name f.pkg
  exact ⟨⟨h1, ht, hd⟩, fun pc hpc =>
    ⟨h2 pc hpc, fun hnd => buildSectionProperties_eq_map pc hnd⟩⟩

def pkgBeta : PkgJson :=
  ⟨"beta", none, none, none,
   some [("opt", ⟨none, [("type", "boolean")]⟩)], some ⟨some "Atom", none⟩⟩

def betaFeature : Feature :=
  ⟨pkgBeta, "pkg/beta", "nuclide.use.beta"⟩

theorem buildConfig_adds_feature_entries_witness :
    lookupKey "beta"
      (ConfigSchema.mk
        [("beta", UseSetting.mk "Enable the \"beta\" feature" "" "boolean" true)]
        [("beta", FeatureSection.mk "object" true
          [("opt", BuiltConfigEntry.mk "opt" [("type", "boolean")])])]).useProperties
      = some (buildUseSetting "beta" betaFeature.pkg) :=
  (buildConfig_adds_feature_entries [("beta", betaFeature)]
    (ConfigSchema.mk
        [("beta", UseSetting.mk "Enable the \"beta\" feature" "" "boolean" true)]
        [("beta", FeatureSection.mk "object" true
          [("opt", BuiltConfigEntry.mk "opt" [("type", "boolean")])])])
    (by decide) (by rfl) "beta" betaFeature (by simp)).1.1

/-! ## `src/lib/main.js` — lifecycle (`deactivate`, `safeDeactivate`) and
the config watcher installed by `activate`

The host editor's side effects are modelled as an event trace; the
`AtomEnv` record says which packages `atom.packages.getLoadedPackage`
reports as loaded and whether `deactivatePackage` throws for a name. -/

inductive AtomEvent where
  | deactivatePackage (name : String) (suppressSerialization : Bool)
  | consoleError (msg : String)
  | activatePackage (dirname : String)
  | disposeDisposables
  | disposeErrorReporter
deriving DecidableEq, Repr

structure AtomEnv where
  loadedPackages : String → Bool
  deactivateThrows : String → Option String

/-- Lines 342-352: deactivate the package when it is loaded, catching
and logging any exception. -/
def safeDeactivate (env : AtomEnv) (name : String) (suppressSerialization : Bool) :
    List AtomEvent :=
  if env.loadedPackages name then
    match env.deactivateThrows name with
    | some msg =>
      [AtomEvent.consoleError ("Error deactivating \"" ++ name ++ "\": " ++ msg)]
    | none => [AtomEvent.deactivatePackage name suppressSerialization]
  else []

/-- Lines 319-331: `deactivate()` runs `safeDeactivate(name, true)` for
every feature, then the two `invariant`-guarded disposals; the second
component is the uncaught invariant error, if any. -/
def deactivate (env : AtomEnv) (featureNames : List String)
    (disposablesPresent errorReporterPresent : Bool) :
    List AtomEvent × Option String :=
  let evts := featureNames.flatMap (fun name => safeDeactivate env name true)
  if disposablesPresent then
    if errorReporterPresent then
      (evts ++ [AtomEvent.disposeDisposables, AtomEvent.disposeErrorReporter], none)
    else
      (evts ++ [AtomEvent.disposeDisposables],
       some "invariant violation: errorReporterDisposable")
  else (evts, some "invariant violation: disposables")

theorem safeDeactivate_suppress (env : AtomEnv) (n name : String) (s : Bool)
    (h : AtomEvent.deactivatePackage n s ∈ safeDeactivate env name true) :
    s = true := by
  unfold safeDeactivate at h
  by_cases hl : env.loadedPackages name
  · rw [if_pos hl] at h
    cases ht : env.deactivateThrows name with
    | some msg =>
      rw [ht] at h
      rcases List.mem_singleton.mp h with h
      cases h
    | none =>
      rw [ht] at h
      exact ((AtomEvent.deactivatePackage.injEq _ _ _ _).mp
        (List.mem_singleton.mp h)).2
  · rw [if_neg hl] at h
    cases h

/-- C4: with the feature list `pre ++ name :: post`, an exception thrown
while deactivating `name` is logged, every other feature is still
attempted, the config-watcher disposables and the error reporter are
still disposed, no uncaught error escapes, and every `deactivatePackage`
call suppresses serialization. -/
theorem deactivate_attempts_all_despite_throw (env : AtomEnv)
    (pre post : List String) (name msg : String)
    (hloaded : env.loadedPackages name = true)
    (hthrow : env.deactivateThrows name = some msg) :
    (deactivate env (pre ++ name :: post) true true).1
      = pre.flatMap (fun n => safeDeactivate env n true)
        ++ AtomEvent.consoleError ("Error deactivating \"" ++ name ++ "\": " ++ msg)
          :: post.flatMap (fun n => safeDeactivate env n true)
        ++ [AtomEvent.disposeDisposables, AtomEvent.disposeErrorReporter] ∧
    (deactivate env (pre ++ name :: post) true true).2 = none ∧
    (∀ n s, AtomEvent.deactivatePackage n s
        ∈ (deactivate env (pre ++ name :: post) true true).1 → s = true) := by
  have hname : safeDeactivate env name true
      = [AtomEvent.consoleError ("Error deactivating \"" ++ name ++ "\": " ++ msg)] := by
    unfold safeDeactivate
    rw [if_pos hloaded, hthrow]
  refine ⟨?_, rfl, ?_⟩
  · show (pre ++ name :: post).flatMap (fun n => safeDeactivate env n true)
        ++ [AtomEvent.disposeDisposables, AtomEvent.disposeErrorReporter] = _
    rw [List.flatMap_append, List.flatMap_cons, hname]
    simp [List.append_assoc]
  · intro n s h
    have h' : AtomEvent.deactivatePackage n s
        ∈ (pre ++ name :: post).flatMap (fun nm => safeDeactivate env nm true)
          ++ [AtomEvent.disposeDisposables, AtomEvent.disposeErrorReporter] := h
    rcases List.mem_append.mp h' with hm | hm
    · obtain ⟨nm, _, hmem⟩ := List.mem_flatMap.mp hm
      exact safeDeactivate_suppress env n nm s hmem
    · rcases List.mem_cons.mp hm with hc | hc
      · cases hc
      · rcases List.mem_singleton.mp hc with hc
        cases hc

def envW : AtomEnv :=
  ⟨fun _ => true, fun n => if n = "b" then some "boom" else none⟩

theorem deactivate_attempts_all_despite_throw_witness :
    (deactivate envW (["a"] ++ "b" :: ["c"]) true true).2 = none :=
  (deactivate_attempts_all_despite_throw envW ["a"] ["c"] "b" "boom" rfl rfl).2.1

/-- JS runtime values a config entry can change to; only the two
booleans are compared with `===` in the watcher. -/
inductive JsValue where
  | bool (b : Bool)
  | str (s : String)
  | num (n : Int)
  | undefined
  | null
deriving DecidableEq, Repr

/-- Lines 293-299: the `atom.config.onDidChange(feature.useKeyPath, ...)`
callback; `safeDeactivate(name)` leaves `suppressSerialization`
undefined, i.e. falsy. -/
def onUseKeyPathChange (env : AtomEnv) (name dirname : String) (newValue : JsValue) :
    List AtomEvent :=
  if newValue = JsValue.bool true then
    [AtomEvent.activatePackage dirname]
  else if newValue = JsValue.bool false then
    safeDeactivate env name false
  else
    []

/-- C7: a change of `nuclide.use.<name>` to `true` activates the
package, a change to `false` deactivates it when it is loaded (here:
and deactivation does not throw), and a change to any non-boolean value
triggers neither activation nor deactivation. -/
theorem config_watcher_toggles (env : AtomEnv) (name dirname : String) (v : JsValue) :
    (v = JsValue.bool true →
      onUseKeyPathChange env name dirname v = [AtomEvent.activatePackage dirname]) ∧
    (v = JsValue.bool false → env.loadedPackages name = true →
      env.deactivateThrows name = none →
      onUseKeyPathChange env name dirname v
        = [AtomEvent.deactivatePackage name false]) ∧
    (v ≠ JsValue.bool true → v ≠ JsValue.bool false →
      onUseKeyPathChange env name dirname v = []) := by
  refine ⟨fun hv => ?_, fun hv hl ht => ?_, fun h1 h2 => ?_⟩
  · rw [onUseKeyPathChange, if_pos hv]
  · rw [onUseKeyPathChange, if_neg (by rw [hv]; intro h; cases h), if_pos hv]
    unfold safeDeactivate
    rw [if_pos hl, ht]
  · rw [onUseKeyPathChange, if_neg h1, if_neg h2]

theorem config_watcher_toggles_witness :
    onUseKeyPathChange envW "a" "pkg/a" (JsValue.bool true)
      = [AtomEvent.activatePackage "pkg/a"] :=
  (config_watcher_toggles envW "a" "pkg/a" (JsValue.bool true)).1 rfl

/-! ## `src/lib/main.js` — menu template reordering in `activate`
(lines 263-275)

`atom.menu.template` is a JS array of menu items; the code reads only
`item.role` and `item.label`.  `Array.prototype.splice` semantics,
including its negative-start normalization, are modelled explicitly. -/

structure MenuItem where
  label : Option String
  role : Option String
deriving DecidableEq, Repr

def isAnchorItem (it : MenuItem) : Bool :=
  it.role == some "window" || it.role == some "help"

def isNuclideItem (it : MenuItem) : Bool :=
  it.label == some "Nuclide"

/-- JS `Array.prototype.findIndex`: the index of the first match, `-1`
when there is none. -/
def jsFindIndex {α : Type} (p : α → Bool) (l : List α) : Int :=
  match l.findIdx? p with
  | some i => (i : Int)
  | none => -1

/-- JS `splice` start-index normalization: negative indices count from
the end, and the result is clamped to `[0, len]`. -/
def jsNormStart (len : Nat) (start : Int) : Nat :=
  if start < 0 then (max ((len : Int) + start) 0).toNat else min start.toNat len

/-- Lines 263-275 of `main.js`: find the first item with role `window`
or `help`; if there is one, `splice` the item labelled `Nuclide` out and
`splice` it back in just before it.  (`splice(nuclideIndex, 1)` can only
return an empty array if the template were empty, which the found anchor
rules out; that branch is dead.) -/
def reorderMenu (template : List MenuItem) : List MenuItem :=
  let insertIndex := jsFindIndex isAnchorItem template
  if insertIndex ≠ -1 then
    let nuclideIndex := jsFindIndex isNuclideItem template
    let s := jsNormStart template.length nuclideIndex
    let removed := (template.drop s).take 1
    let t' := template.take s ++ template.drop (s + 1)
    match removed with
    | [] => t'
    | menuItem :: _ =>
      let newIndex : Int :=
        if insertIndex > nuclideIndex then insertIndex - 1 else insertIndex
      let s2 := jsNormStart t'.length newIndex
      t'.take s2 ++ menuItem :: t'.drop s2
  else template

theorem jsNormStart_nonneg (len : Nat) (k : Int) (h0 : 0 ≤ k) (hle : k.toNat ≤ len) :
    jsNormStart len k = k.toNat := by
  unfold jsNormStart
  rw [if_neg (not_lt.mpr h0)]
  exact Nat.min_eq_left hle

/-- C5: when the menu template has an item with role `window` or
`help`, the item labelled `Nuclide` is removed from its position and
reinserted immediately before the first such item (the rest of the
template keeps its order, being the erased list split at that point);
when there is no such item the template is left unchanged. -/
theorem reorderMenu_spec (template : List MenuItem) :
    (template.findIdx? isAnchorItem = none → reorderMenu template = template) ∧
    (∀ i n : Nat, template.findIdx? isAnchorItem = some i →
      template.findIdx? isNuclideItem = some n → i ≠ n →
      ∃ nuclideItem,
        template[n]? = some nuclideItem ∧
        reorderMenu template
          = (template.take n ++ template.drop (n + 1)).take (if n < i then i - 1 else i)
            ++ nuclideItem ::
              (template.take n ++ template.drop (n + 1)).drop (if n < i then i - 1 else i) ∧
        (template.take n ++ template.drop (n + 1)).findIdx? isAnchorItem
          = some (if n < i then i - 1 else i)) := by
  constructor
  · intro h
    simp only [reorderMenu, jsFindIndex, h]
    norm_num
  · intro i n hi hn hne
    obtain ⟨hil, hpi, hmini⟩ := List.findIdx?_eq_some_iff_getElem.mp hi
    obtain ⟨hnl, hpn, hminn⟩ := List.findIdx?_eq_some_iff_getElem.mp hn
    have hlentake : (template.take n).length = n := by
      simp only [List.length_take]
      omega
    refine ⟨template[n], List.getElem?_eq_getElem hnl, ?_, ?_⟩
    · simp only [reorderMenu, jsFindIndex, hi, hn]
      rw [if_pos (show ((i : Int)) ≠ -1 by omega)]
      have hs : jsNormStart template.length ((n : Nat) : Int) = n := by
        rw [jsNormStart_nonneg _ _ (by omega) (by omega)]
        omega
      rw [hs, List.drop_eq_getElem_cons hnl]
      simp only [List.take_succ_cons, List.take_zero]
      have hlen : (List.take n template ++ List.drop (n + 1) template).length
          = template.length - 1 := by
        simp only [List.length_append, List.length_take, List.length_drop]
        omega
      rw [hlen]
      by_cases hlt : n < i
      · rw [if_pos (show ((i : Int)) > ((n : Int)) from by exact_mod_cast hlt),
          if_pos hlt]
        have hs2 : jsNormStart (template.length - 1) ((i : Int) - 1) = i - 1 := by
          rw [jsNormStart_nonneg _ _ (by omega) (by omega)]
          omega
        rw [hs2]
      · rw [if_neg (show ¬(((i : Int)) > ((n : Int))) from by
            intro hc
            exact hlt (by exact_mod_cast hc)),
          if_neg hlt]
        have hs2 : jsNormStart (template.length - 1) ((i : Int)) = i := by
          rw [jsNormStart_nonneg _ _ (by omega) (by omega)]
          omega
        rw [hs2]
    · by_cases hlt : n < i
      · rw [if_pos hlt, List.findIdx?_append]
        have h1 : (template.take n).findIdx? isAnchorItem = none := by
          rw [List.findIdx?_eq_none_iff]
          intro x hx
          obtain ⟨j, hj, rfl⟩ := List.mem_iff_getElem.mp hx
          rw [hlentake] at hj
          simp only [List.getElem_take]
          simpa using hmini j (by omega)
        have h2 : (template.drop (n + 1)).findIdx? isAnchorItem = some (i - (n + 1)) := by
          rw [List.findIdx?_eq_some_iff_getElem]
          refine ⟨by simp only [List.length_drop]; omega, ?_, ?_⟩
          · have hidx : n + 1 + (i - (n + 1)) = i := by omega
            simp only [List.getElem_drop, hidx]
            exact hpi
          · intro j hji
            simp only [List.getElem_drop]
            exact hmini (n + 1 + j) (by omega)
        rw [h1, h2]
        show some (i - (n + 1) + (template.take n).length) = _
        rw [hlentake]
        congr 1
        omega
      · rw [if_neg hlt, List.findIdx?_append]
        have h1 : (template.take n).findIdx? isAnchorItem = some i := by
          rw [List.findIdx?_eq_some_iff_getElem]
          refine ⟨by rw [hlentake]; omega, ?_, ?_⟩
          · simp only [List.getElem_take]
            exact hpi
          · intro j hji
            simp only [List.getElem_take]
            exact hmini j hji
        rw [h1]
        rfl

def menuN : MenuItem := ⟨some "Nuclide", none⟩
def menuE : MenuItem := ⟨some "Edit", none⟩
def menuW : MenuItem := ⟨none, some "window"⟩

theorem reorderMenu_spec_witness :
    reorderMenu [menuN, menuE, menuW] = [menuE, menuN, menuW] := by
  obtain ⟨x, hx, heq, _⟩ :=
    (reorderMenu_spec [menuN, menuE, menuW]).2 2 0 (by decide) (by decide) (by decide)
  rw [show ([menuN, menuE, menuW] : List MenuItem)[0]? = some menuN from rfl] at hx
  cases Option.some.inj hx
  rw [heq]
  rfl

/-! ## `src/modules/nuclide-commons-atom/observePaneItemVisibility.js`

Observables are modelled by the finite list of values they emit along a
finite trace of host pane events; panes and items are identified by
numeric ids (JS object identity).  The merge of the pane streams of all
pane containers is the single event trace.  `debounceTime(0,
animationFrame)` only collapses emissions within one synchronous frame;
each trace event is modelled as its own frame, making the operator the
identity here.  `memoize` and `share` multicast without changing the
emitted sequence. -/

inductive PaneEvent where
  | activeItem (pane : Nat) (item : Nat)
  | destroyed (pane : Nat)
deriving DecidableEq, Repr

/-- JS `Map.prototype.delete`. -/
def mapDelete {κ α : Type} [DecidableEq κ] (m : List (κ × α)) (k : κ) : List (κ × α) :=
  m.filter (fun kv => kv.1 ≠ k)

/-- The `scan` body (lines 57-64): an activation sets the pane's entry
(JS `Map.set`: update in place or append), the `{pane, item: null}`
emitted after `onDidDestroy` (lines 47-50) deletes it. -/
def panesStep (acc : List (Nat × Nat)) : PaneEvent → List (Nat × Nat)
  | PaneEvent.activeItem pane item => upsert acc pane item
  | PaneEvent.destroyed pane => mapDelete acc pane

/-- The value of the `scan` accumulator after a trace. -/
def panesToActiveItem (evts : List PaneEvent) : List (Nat × Nat) :=
  List.foldl panesStep [] evts

/-- The sequence of accumulator values the `scan` emits (one per source
event). -/
def scanStates (acc : List (Nat × Nat)) : List PaneEvent → List (List (Nat × Nat))
  | [] => []
  | e :: rest =>
    let acc' := panesStep acc e
    acc' :: scanStates acc' rest

/-- `Array.from(map.values())` (line 71). -/
def mapValues (m : List (Nat × Nat)) : List Nat :=
  m.map Prod.snd

/-- `observeActiveItems()` (lines 34-74): the emitted active-item
arrays. -/
def observeActiveItems (evts : List PaneEvent) : List (List Nat) :=
  (scanStates [] evts).map mapValues

/-- rxjs `distinctUntilChanged`: drop a value equal to the previously
emitted one. -/
def distinctLoop (prev : Bool) : List Bool → List Bool
  | [] => []
  | b :: rest => if b = prev then distinctLoop prev rest else b :: distinctLoop b rest

def distinctUntilChanged : List Bool → List Bool
  | [] => []
  | b :: rest => b :: distinctLoop b rest

/-- Lines 29-31: `observeActiveItems().map(activeItems =>
activeItems.includes(item)).distinctUntilChanged()`. -/
def observePaneItemVisibility (item : Nat) (evts : List PaneEvent) : List Bool :=
  distinctUntilChanged
    ((observeActiveItems evts).map (fun activeItems => activeItems.contains item))

/-- The workspace as the observer sees it: either no
`getPaneContainers` method (pre-Docks Atom) or one yielding the merged
pane-event trace. -/
structure Workspace where
  getPaneContainers : Option (List PaneEvent)

/-- Lines 18-32 with the `atom.workspace.getPaneContainers == null`
guard: `Observable.empty()` emits nothing, modelled by `[]`. -/
def observePaneItemVisibilityFull (ws : Workspace) (item : Nat) : List Bool :=
  match ws.getPaneContainers with
  | none => []
  | some evts => observePaneItemVisibility item evts

def eventPane : PaneEvent → Nat
  | PaneEvent.activeItem p _ => p
  | PaneEvent.destroyed p => p

/-- Spec-side definition, from the claim's words: a pane contributes its
most recently activated item, and contributes nothing once the last
event concerning it is its destruction. -/
def specActiveItem (pane : Nat) (evts : List PaneEvent) : Option Nat :=
  match evts.reverse.find? (fun e => eventPane e = pane) with
  | some (PaneEvent.activeItem _ item) => some item
  | _ => none

/-- Spec-side visibility: the item is among the per-pane active items. -/
def specVisible (item : Nat) (evts : List PaneEvent) : Bool :=
  (evts.map eventPane).any (fun pane => specActiveItem pane evts = some item)

/-- The non-empty prefixes of a trace, in order: the `scan` has emitted
once per event, after that event. -/
def nonemptyPrefixes {α : Type} (l : List α) : List (List α) :=
  (List.range l.length).map (fun k => l.take (k + 1))

theorem lookupKey_mapDelete_self {κ α : Type} [DecidableEq κ] (k : κ) :
    ∀ m : List (κ × α), lookupKey k (mapDelete m k) = none := by
  intro m
  induction m with
  | nil => rfl
  | cons hd tl ih =>
    unfold mapDelete
    rw [List.filter_cons]
    by_cases hhd : hd.1 = k
    · simp only [hhd]
      simpa [mapDelete] using ih
    · simp only [show (decide ¬(hd.1 = k)) = true by simp [hhd], if_pos]
      rw [lookupKey, if_neg hhd]
      simpa [mapDelete] using ih

theorem lookupKey_mapDelete_ne {κ α : Type} [DecidableEq κ] (k p : κ) (h : k ≠ p) :
    ∀ m : List (κ × α), lookupKey k (mapDelete m p) = lookupKey k m := by
  intro m
  induction m with
  | nil => rfl
  | cons hd tl ih =>
    unfold mapDelete
    rw [List.filter_cons]
    by_cases hhd : hd.1 = p
    · rw [if_neg (by simp [hhd])]
      rw [show lookupKey k (hd :: tl) = lookupKey k tl from by
        rw [lookupKey, if_neg (fun hc : hd.1 = k => h (hc.symm.trans hhd))]]
      simpa [mapDelete] using ih
    · rw [if_pos (by simp [hhd])]
      rw [lookupKey, lookupKey]
      by_cases hk : hd.1 = k
      · rw [if_pos hk, if_pos hk]
      · rw [if_neg hk, if_neg hk]
        simpa [mapDelete] using ih

theorem specActiveItem_snoc (pane : Nat) (xs : List PaneEvent) (e : PaneEvent) :
    specActiveItem pane (xs ++ [e])
      = if eventPane e = pane then
          (match e with
           | PaneEvent.activeItem _ item => some item
           | PaneEvent.destroyed _ => none)
        else specActiveItem pane xs := by
  unfold specActiveItem
  rw [List.reverse_append, List.reverse_singleton, List.singleton_append]
  by_cases hp : eventPane e = pane
  · rw [List.find?_cons_of_pos _ (by simpa using hp), if_pos hp]
    cases e <;> rfl
  · rw [List.find?_cons_of_neg _ (by simpa using hp), if_neg hp]

theorem lookupKey_panesToActiveItem (pane : Nat) (evts : List PaneEvent) :
    lookupKey pane (panesToActiveItem evts) = specActiveItem pane evts := by
  induction evts using List.reverseRecOn with
  | nil => rfl
  | append_singleton xs e ih =>
    unfold panesToActiveItem at ih ⊢
    rw [List.foldl_append, List.foldl_cons, List.foldl_nil, specActiveItem_snoc]
    cases e with
    | activeItem p it =>
      simp only [eventPane, panesStep]
      by_cases hp : p = pane
      · subst hp
        rw [lookupKey_upsert, if_pos rfl]
      · rw [lookupKey_upsert_ne _ pane p it (fun hc => hp hc.symm), if_neg hp, ih]
    | destroyed p =>
      simp only [eventPane, panesStep]
      by_cases hp : p = pane
      · subst hp
        rw [lookupKey_mapDelete_self, if_pos rfl]
      · rw [lookupKey_mapDelete_ne pane p (fun hc => hp hc.symm), if_neg hp, ih]

def NodupKeys {κ α : Type} (m : List (κ × α)) : Prop :=
  (m.map Prod.fst).Nodup

theorem upsert_nodupKeys {κ α : Type} [DecidableEq κ] (m : List (κ × α)) (k : κ) (v : α)
    (h : NodupKeys m) : NodupKeys (upsert m k v) := by
  unfold upsert
  by_cases hany : m.any (fun kv => kv.1 = k)
  · rw [if_pos hany]
    unfold NodupKeys at h ⊢
    rw [List.map_map]
    have : ∀ kv ∈ m, (Prod.fst ∘ fun kv => if kv.1 = k then (k, v) else kv) kv
        = Prod.fst kv := by
      intro kv _
      by_cases hk : kv.1 = k
      · simp [hk]
      · simp [hk]
    rw [List.map_congr_left this]
    exact h
  · rw [if_neg hany]
    unfold NodupKeys at h ⊢
    rw [List.map_append]
    rw [List.nodup_append]
    refine ⟨h, List.nodup_singleton _, ?_⟩
    intro a ha
    simp only [List.map_cons, List.map_nil, List.mem_singleton]
    intro hak
    obtain ⟨kv, hkv, hfst⟩ := List.mem_map.mp ha
    exact hany (List.any_eq_true.mpr ⟨kv, hkv, decide_eq_true (hfst.trans hak)⟩)

theorem mapDelete_nodupKeys {κ α : Type} [DecidableEq κ] (m : List (κ × α)) (k : κ)
    (h : NodupKeys m) : NodupKeys (mapDelete m k) := by
  unfold NodupKeys at h ⊢
  exact ((List.filter_sublist m).map Prod.fst).nodup h

theorem panesToActiveItem_nodupKeys (evts : List PaneEvent) :
    ∀ acc : List (Nat × Nat), NodupKeys acc
      → NodupKeys (List.foldl panesStep acc evts) := by
  induction evts with
  | nil => intro acc h; exact h
  | cons e rest ih =>
    intro acc h
    rw [List.foldl_cons]
    refine ih _ ?_
    cases e with
    | activeItem p it => exact upsert_nodupKeys acc p it h
    | destroyed p => exact mapDelete_nodupKeys acc p h

theorem lookupKey_of_mem_nodup {κ α : Type} [DecidableEq κ] {k : κ} {v : α} :
    ∀ {m : List (κ × α)}, (k, v) ∈ m → NodupKeys m → lookupKey k m = some v := by
  intro m
  induction m with
  | nil => intro h; cases h
  | cons hd tl ih =>
    intro hmem hnd
    unfold NodupKeys at hnd
    rw [List.map_cons, List.nodup_cons] at hnd
    rcases List.mem_cons.mp hmem with rfl | hmem'
    · rw [lookupKey, if_pos rfl]
    · have hk : k ∈ tl.map Prod.fst := List.mem_map.mpr ⟨(k, v), hmem', rfl⟩
      rw [lookupKey, if_neg (fun hc : hd.1 = k => hnd.1 (hc ▸ hk))]
      exact ih hmem' hnd.2

theorem mem_of_lookupKey {κ α : Type} [DecidableEq κ] {k : κ} {v : α} :
    ∀ {m : List (κ × α)}, lookupKey k m = some v → (k, v) ∈ m := by
  intro m
  induction m with
  | nil => intro h; cases h
  | cons hd tl ih =>
    intro h
    rw [lookupKey] at h
    by_cases hk : hd.1 = k
    · rw [if_pos hk] at h
      have hv : hd.2 = v := Option.some.inj h
      have heq : (k, v) = hd := by
        rw [← hk, ← hv]
      rw [heq]
      exact List.mem_cons_self hd tl
    · rw [if_neg hk] at h
      exact List.mem_cons_of_mem hd (ih h)

theorem mem_foldl_panesStep_keys (evts : List PaneEvent) :
    ∀ (acc : List (Nat × Nat)) (k v : Nat), (k, v) ∈ List.foldl panesStep acc evts →
      (∃ w, (k, w) ∈ acc) ∨ k ∈ evts.map eventPane := by
  induction evts with
  | nil =>
    intro acc k v h
    exact Or.inl ⟨v, h⟩
  | cons e rest ih =>
    intro acc k v h
    rw [List.foldl_cons] at h
    rcases ih (panesStep acc e) k v h with ⟨w, hw⟩ | hrest
    · cases e with
      | activeItem p it =>
        rcases mem_upsert_cases hw with hacc | ⟨rfl, rfl⟩
        · exact Or.inl ⟨w, hacc⟩
        · exact Or.inr (by simp [eventPane])
      | destroyed p =>
        exact Or.inl ⟨w, List.mem_of_mem_filter hw⟩
    · exact Or.inr (List.mem_cons_of_mem _ hrest)

theorem contains_values_eq_specVisible (item : Nat) (p : List PaneEvent) :
    (mapValues (panesToActiveItem p)).contains item = specVisible item p := by
  have hiff : item ∈ mapValues (panesToActiveItem p) ↔ specVisible item p = true := by
    constructor
    · intro h
      obtain ⟨kv, hkv, hsnd⟩ := List.mem_map.mp h
      have hmem : (kv.1, item) ∈ panesToActiveItem p := by
        have : kv = (kv.1, item) := by rw [← hsnd]
        exact this ▸ hkv
      have hnd : NodupKeys (panesToActiveItem p) :=
        panesToActiveItem_nodupKeys p [] (by simp [NodupKeys])
      have hlk : lookupKey kv.1 (panesToActiveItem p) = some item :=
        lookupKey_of_mem_nodup hmem hnd
      have hspec : specActiveItem kv.1 p = some item :=
        (lookupKey_panesToActiveItem kv.1 p).symm.trans hlk
      have hkey : kv.1 ∈ p.map eventPane := by
        rcases mem_foldl_panesStep_keys p [] kv.1 item hmem with ⟨w, hw⟩ | hk
        · cases hw
        · exact hk
      exact List.any_eq_true.mpr ⟨kv.1, hkey, decide_eq_true hspec⟩
    · intro h
      obtain ⟨pane, hpane, hdec⟩ := List.any_eq_true.mp h
      have hspec : specActiveItem pane p = some item := of_decide_eq_true hdec
      have hlk : lookupKey pane (panesToActiveItem p) = some item :=
        (lookupKey_panesToActiveItem pane p).trans hspec
      have hmem : (pane, item) ∈ panesToActiveItem p := mem_of_lookupKey hlk
      exact List.mem_map.mpr ⟨(pane, item), hmem, rfl⟩
  have hcon : (mapValues (panesToActiveItem p)).contains item = true
      ↔ item ∈ mapValues (panesToActiveItem p) := by
    simp [List.contains, List.elem_eq_mem]
  cases hv : specVisible item p with
  | true => exact hcon.mpr (hiff.mpr hv)
  | false =>
    cases hcc : (mapValues (panesToActiveItem p)).contains item with
    | false => rfl
    | true =>
      rw [hiff.mp (hcon.mp hcc)] at hv
      cases hv

theorem scanStates_eq (evts : List PaneEvent) :
    ∀ acc : List (Nat × Nat),
    scanStates acc evts
      = (List.range evts.length).map
          (fun k => List.foldl panesStep acc (evts.take (k + 1))) := by
  induction evts with
  | nil => intro acc; rfl
  | cons e rest ih =>
    intro acc
    show panesStep acc e :: scanStates (panesStep acc e) rest = _
    rw [ih (panesStep acc e), List.length_cons, List.range_succ_eq_map,
      List.map_cons, List.map_map]
    rfl

theorem distinctLoop_chain (l : List Bool) :
    ∀ prev, List.Chain' (fun a b => a ≠ b) (prev :: distinctLoop prev l) := by
  induction l with
  | nil =>
    intro prev
    exact List.chain'_singleton prev
  | cons b rest ih =>
    intro prev
    rw [distinctLoop]
    by_cases hb : b = prev
    · rw [if_pos hb]
      exact ih prev
    · rw [if_neg hb]
      rw [List.chain'_cons]
      exact ⟨fun hc => hb hc.symm, ih b⟩

theorem distinctUntilChanged_chain (l : List Bool) :
    List.Chain' (fun a b => a ≠ b) (distinctUntilChanged l) := by
  cases l with
  | nil => simp [distinctUntilChanged]
  | cons b rest =>
    rw [distinctUntilChanged]
    exact distinctLoop_chain rest b

/-- C6: the emitted boolean sequence is exactly the
consecutive-deduplication of "is the item among the per-pane active
items" evaluated after each pane event, where a pane's active item is
its most recently activated one and is dropped once the pane is
destroyed; consequently the sequence never repeats a value twice in a
row. -/
theorem observePaneItemVisibility_spec (item : Nat) (evts : List PaneEvent) :
    observePaneItemVisibility item evts
      = distinctUntilChanged ((nonemptyPrefixes evts).map (specVisible item)) ∧
    List.Chain' (fun a b => a ≠ b) (observePaneItemVisibility item evts) := by
  refine ⟨?_, ?_⟩
  · unfold observePaneItemVisibility observeActiveItems nonemptyPrefixes
    rw [scanStates_eq evts []]
    simp only [List.map_map]
    congr 1
    apply List.map_congr_left
    intro k _
    show (mapValues (List.foldl panesStep [] (evts.take (k + 1)))).contains item
        = specVisible item (evts.take (k + 1))
    exact contains_values_eq_specVisible item (evts.take (k + 1))
  · unfold observePaneItemVisibility
    exact distinctUntilChanged_chain _

/-- C10: when the workspace lacks `getPaneContainers`, the returned
observable is `Observable.empty()`: it emits no value for any item. -/
theorem observePaneItemVisibilityFull_empty (ws : Workspace) (item : Nat)
    (h : ws.getPaneContainers = none) :
    observePaneItemVisibilityFull ws item = [] := by
  unfold observePaneItemVisibilityFull
  rw [h]

theorem observePaneItemVisibilityFull_empty_witness :
    observePaneItemVisibilityFull ⟨none⟩ 0 = [] :=
  observePaneItemVisibilityFull_empty ⟨none⟩ 0 rfl

end Nuclide
